import Mathlib

/-!
Verification development for the lock_free repository (fifo + shared_mutex).

The canonical fifo iteration is the slot-state design of src/unnamed/part_000
(class lock_free::fifo with a vector of storage_type slots, each carrying a
value and an atomic value_state, plus atomic counters read_, write_, size_).
Earlier iterations are embedded where a claim cites them:
  * src/include/lock_free/fifo.h (first document): the packed-storage-struct
    queue whose pop claims an index by incrementing read and backs out;
  * src/unnamed/part_003 / part_004: the bitflag queue whose reset subtracts
    write from both counters;
  * src/include/lock_free/shared_mutex.h (first document): the pure-atomic
    spin shared_mutex.

The embedding is sequential (operations run without interleaving, as the
claims under test state).  Atomic RMW sequences inside one operation are
composed in program order.  vector indexing storage_[id] is modelled with
List.getD / List.set; every in-contract call site keeps id below the slab
length (enforced by the invariant fifo_inv below), so the getD default and
the List.set out-of-range no-op are never exercised by the theorems.
-/

namespace LockFree

/-- `value_state` from src/unnamed/part_000 lines 23-29
(uninitialized, ready, done, in_use). -/
inductive value_state where
  | uninitialized
  | ready
  | done
  | in_use
deriving DecidableEq

/-- `storage_type` from src/unnamed/part_000 lines 32-44: a value and its
state tag (the atomic is collapsed to its value in this sequential model). -/
structure Slot (V : Type) where
  value : V
  state : value_state
deriving DecidableEq

/-- The fifo state of src/unnamed/part_000: counters read_, write_, size_
and the slot vector storage_.  (The shared_mutex lock_ has no residual state
between complete operations, so it does not appear in the sequential state.) -/
structure Fifo (V : Type) where
  read : Nat
  write : Nat
  size : Nat
  storage : List (Slot V)
deriving DecidableEq

/-- Default-constructed slot: value default-constructed, state zero
(= uninitialized), as produced by vector<storage_type>(n) / resize. -/
def defaultSlot (V : Type) [Inhabited V] : Slot V :=
  ⟨default, .uninitialized⟩

/-- std::numeric_limits<size_t>::max() on the 64-bit size_t of the source. -/
def usizeMax : Nat := 2 ^ 64 - 1

/-- Observed state tag of slot `i` (storage_[i].state). -/
def stateAt {V : Type} [Inhabited V] (q : Fifo V) (i : Nat) : value_state :=
  (q.storage.getD i (defaultSlot V)).state

/-- Observed value of slot `i` (storage_[i].value). -/
def valueAt {V : Type} [Inhabited V] (q : Fifo V) (i : Nat) : V :=
  (q.storage.getD i (defaultSlot V)).value

/-- Overwrite slot `i` entirely (value and state). -/
def setSlot {V : Type} (q : Fifo V) (i : Nat) (s : Slot V) : Fifo V :=
  { q with storage := q.storage.set i s }

/-- Constructor from src/unnamed/part_000 lines 47-54:
`fifo(size_t size = 1024)` sets read_ = write_ = 0, size_ = size and
default-constructs `size` slots.  The C++ default argument is 1024
(`fifoNewDefault` below).  Note the constructor has no throw path and does
not adjust a zero capacity. -/
def fifoNew (V : Type) [Inhabited V] (n : Nat) : Fifo V :=
  ⟨0, 0, n, List.replicate n (defaultSlot V)⟩

/-- The constructor applied to its C++ default argument 1024. -/
def fifoNewDefault (V : Type) [Inhabited V] : Fifo V :=
  fifoNew V 1024

/-- vector<storage_type>::resize(n): keeps the first n elements, appending
default-constructed slots when growing. -/
def listResize {V : Type} [Inhabited V] (l : List (Slot V)) (n : Nat) : List (Slot V) :=
  if n ≤ l.length then l.take n
  else l ++ List.replicate (n - l.length) (defaultSlot V)

/-- `resize_storage` from src/unnamed/part_000 lines 194-216:
while size_ <= id: the thread whose id == size_ doubles the slab
(newsize = max(1, size_*2), storage_.resize(newsize), size_ = storage_.size());
a thread with id > size_ only yields, waiting for another thread to grow —
single-threaded that waiter branch never exits, and it is unreachable here
because the sequential caller always has id == write_ - 1 ≤ size_ (it is
rendered as the identity). -/
def resize_storage {V : Type} [Inhabited V] (q : Fifo V) (id : Nat) : Fifo V :=
  if h : q.size ≤ id then
    if h2 : id = q.size then
      resize_storage
        ⟨q.read, q.write, max 1 (q.size * 2), listResize q.storage (max 1 (q.size * 2))⟩ id
    else q
  else q
termination_by id + 1 - q.size
decreasing_by
  rcases Nat.eq_zero_or_pos q.size with h0 | h0
  · rw [h0]
    omega
  · have hm : q.size * 2 ≤ max 1 (q.size * 2) := Nat.le_max_right 1 (q.size * 2)
    omega

/-- `push` from src/unnamed/part_000 lines 60-80, successful or overflowing:
if write_ == max the logic_error "fifo full" is thrown (overflow = true)
before any state change; otherwise id = write_++ claims a slot, the slab is
grown when id ≥ size_, and under the shared lock the value is assigned into
slot id and its state is stored as ready. -/
structure PushOut (V : Type) where
  overflow : Bool
  q : Fifo V
deriving DecidableEq

def push {V : Type} [Inhabited V] (v : V) (q : Fifo V) : PushOut V :=
  if q.write = usizeMax then ⟨true, q⟩
  else
    let id := q.write
    let q1 : Fifo V := { q with write := q.write + 1 }
    let q2 := if q1.size ≤ id then resize_storage q1 id else q1
    ⟨false, setSlot q2 id ⟨v, .ready⟩⟩

/-- `push` when the assignment `storage_[id].value = value` raises (the user
type's copy/move throwing).  Translated from src/unnamed/part_000 lines
60-80: there is no try/catch in push, so the exception propagates after the
counter increment and the resize; neither the slot's value nor its state has
been written (the state store on line 79 is not reached), and the counter is
not rolled back. -/
def pushValueThrows {V : Type} [Inhabited V] (q : Fifo V) : Fifo V :=
  if q.write = usizeMax then q
  else
    let id := q.write
    let q1 : Fifo V := { q with write := q.write + 1 }
    if q1.size ≤ id then resize_storage q1 id else q1

/-- `reset_counters` from src/unnamed/part_000 lines 177-192: under the
exclusive lock, re-check read_ != write_ (another producer may have pushed)
and bail out; otherwise zero both counters. -/
def reset_counters {V : Type} (q : Fifo V) : Fifo V :=
  if q.read ≠ q.write then q else { q with read := 0, write := 0 }

/-- The CAS walk inside `increase_read` (src/unnamed/part_000 line 227):
while id < size_ and storage_[id++].state CASes done → uninitialized,
increment read_. -/
def advance_read_walk {V : Type} [Inhabited V] (q : Fifo V) (id : Nat) : Fifo V :=
  if h : id < q.size ∧ stateAt q id = .done then
    advance_read_walk
      { q with read := q.read + 1,
               storage := q.storage.set id ⟨valueAt q id, .uninitialized⟩ }
      (id + 1)
  else q
termination_by q.size - id
decreasing_by
  omega

/-- `increase_read` from src/unnamed/part_000 lines 218-240: nothing happens
unless the consumed id is exactly read_; otherwise retire the contiguous done
run starting at id, and if the queue drained (read_ == write_) release the
shared lock and run reset_counters (which re-checks under the exclusive
lock). -/
def increase_read {V : Type} [Inhabited V] (id : Nat) (q : Fifo V) : Fifo V :=
  if id ≠ q.read then q
  else
    let q1 := advance_read_walk q id
    if q1.read = q1.write then reset_counters q1 else q1

/-- The scan loop of `pop_generic` from src/unnamed/part_000 lines 144-175,
specialised to the swap assign of `pop` (lines 86-93): for id in [read_, m),
CAS slot id ready → done (sequentially: test state = ready); on the winning
slot swap the value with the caller's out argument `cur` (out receives the
slot value — the first component of the result — and the slot value becomes
the old out), run increase_read, return true.  If no slot wins, return false
with the queue untouched.  (pop_generic's catch handler, which restores the
slot to ready when the assign throws, is dead for pop's std::swap assign and
is therefore not modelled.) -/
def pop_scan {V : Type} [Inhabited V] (cur : V) (q : Fifo V) (id m : Nat) :
    Option V × Fifo V :=
  if h : id < m then
    if stateAt q id = .ready then
      let v := valueAt q id
      let q1 := setSlot q id ⟨cur, .done⟩
      (some v, increase_read id q1)
    else pop_scan cur q (id + 1) m
  else (none, q)
termination_by m - id

/-- `pop` from src/unnamed/part_000 lines 86-93 and 144-175:
m = min(write_, size_); scan from read_.  `cur` is the caller's out argument
before the call; a `none` result models `return false` with out untouched. -/
def pop {V : Type} [Inhabited V] (cur : V) (q : Fifo V) : Option V × Fifo V :=
  pop_scan cur q q.read (min q.write q.size)

/-- `clear` from src/unnamed/part_000 lines 115-124 (same body as
src/unnamed/part_001 lines 100-112): under the exclusive lock set
read_ = 0 and write_ = 0.  Slot states are NOT touched. -/
def clear {V : Type} (q : Fifo V) : Fifo V :=
  { q with read := 0, write := 0 }

/-- `empty` from src/unnamed/part_000 lines 129-132. -/
def emptyQ {V : Type} (q : Fifo V) : Bool :=
  q.read == q.write

/-- The loop of `pop_all` from src/unnamed/part_000 lines 99-110:
`while (pop(tmp)) unfinished.push_back(move(tmp))`.  The swap inside pop
puts the previous content of tmp into the consumed slot, so the popped value
is threaded back as the next call's `cur`.  `fuel` bounds the iteration
count; pop_all below passes a bound that provably dominates the true number
of iterations, so the fuel case never cuts the loop short. -/
def pop_all_loop {V : Type} [Inhabited V] (fuel : Nat) (tmp : V) (q : Fifo V)
    (acc : List V) : List V × Fifo V :=
  match fuel with
  | 0 => (acc, q)
  | f + 1 =>
    match pop tmp q with
    | (none, q1) => (acc, q1)
    | (some v, q1) => pop_all_loop f v q1 (acc ++ [v])

/-- `pop_all` from src/unnamed/part_000 lines 99-110.  The fuel
min(write_, size_) - read_ + 1 dominates the loop count: every successful
pop turns a ready slot of the window [read_, min(write_, size_)) into done
(and the window never gains ready slots nor new indices — read_ only grows
or resets together with write_ to 0, and write_, size_ are unchanged by
pop), so there are at most window-many successes before the final failing
pop ends the loop. -/
def pop_all {V : Type} [Inhabited V] (q : Fifo V) : List V × Fifo V :=
  pop_all_loop (min q.write q.size - q.read + 1) default q []

/-- A history operation: the claims quantify over sequences of push, pop and
pop_all executed without interleaving. -/
inductive Op (V : Type) where
  | push (v : V)
  | pop
  | pop_all

/-- One history step, accumulating the values of successful pushes and the
values returned by successful pops.  pop is driven with a
default-constructed out argument (`value_type tmp;` in the callers). -/
def histStep {V : Type} [Inhabited V] (s : Fifo V × List V × List V) (op : Op V) :
    Fifo V × List V × List V :=
  match op with
  | .push v =>
    let r := push v s.1
    (r.q, if r.overflow then s.2.1 else s.2.1 ++ [v], s.2.2)
  | .pop =>
    match pop default s.1 with
    | (none, q1) => (q1, s.2.1, s.2.2)
    | (some v, q1) => (q1, s.2.1, s.2.2 ++ [v])
  | .pop_all =>
    let r := pop_all s.1
    (r.2, s.2.1, s.2.2 ++ r.1)

/-- Run a history from a freshly constructed queue of capacity n. -/
def runHist {V : Type} [Inhabited V] (n : Nat) (ops : List (Op V)) :
    Fifo V × List V × List V :=
  ops.foldl histStep (fifoNew V n, [], [])

/-- The published-but-unclaimed window [read_, write_) of slot indices. -/
def windowIdx {V : Type} (q : Fifo V) : List Nat :=
  List.range' q.read (q.write - q.read)

/-- The values currently sitting in the window. -/
def windowVals {V : Type} [Inhabited V] (q : Fifo V) : List V :=
  (windowIdx q).map (valueAt q)

/-- State invariant of the sequential executions of part_000's fifo:
size_ mirrors the slab length, read_ ≤ write_ ≤ size_, slots inside
[read_, write_) are ready and every other slot is uninitialized. -/
def fifo_inv {V : Type} [Inhabited V] (q : Fifo V) : Prop :=
  q.size = q.storage.length ∧ q.read ≤ q.write ∧ q.write ≤ q.size ∧
    ∀ i, i < q.storage.length →
      stateAt q i = if q.read ≤ i ∧ i < q.write then .ready else .uninitialized

instance {V : Type} [Inhabited V] (q : Fifo V) : Decidable (fifo_inv q) := by
  unfold fifo_inv
  exact inferInstance

/-! ### The packed-storage iteration (src/include/lock_free/fifo.h, first
document): its pop claims an index by incrementing read and backs out when
the claim overshoots the published region. -/

/-- `struct storage` from src/include/lock_free/fifo.h lines 143-147:
read_, write_, stored_ and the lookup array (the payload array pointer,
modelled by the list it points to). -/
structure Storage0 (V : Type) where
  read : Nat
  write : Nat
  stored : Nat
  lookup : List V
deriving DecidableEq

/-- `try_cleanup` from src/include/lock_free/fifo.h lines 124-141: when
read_ == write_ == stored_, CAS the whole word to zeroed counters (same
lookup pointer); otherwise leave it alone. -/
def try_cleanup0 {V : Type} (s : Storage0 V) : Storage0 V :=
  if s.read ≠ s.write ∨ s.read ≠ s.stored then s
  else ⟨0, 0, 0, s.lookup⟩

/-- `pop_generic` from src/include/lock_free/fifo.h lines 105-122:
id = increase_read() (the pre-increment read_); if id ≥ stored_, the claim
overshot: decrease_read() restores read_, try_cleanup() may zero the drained
counters, and the pop returns false leaving the caller's out argument
untouched (`none`); otherwise the value at id is assigned out. -/
def pop_generic0 {V : Type} [Inhabited V] (s : Storage0 V) : Option V × Storage0 V :=
  let id := s.read
  let s1 : Storage0 V := { s with read := s.read + 1 }
  if id ≥ s1.stored then
    let s2 : Storage0 V := { s1 with read := s1.read - 1 }
    (none, try_cleanup0 s2)
  else
    (some (s1.lookup.getD id default), s1)

/-! ### The subtractive counter reset (src/unnamed/part_003 lines 252-271,
and the same subtraction in part_004's try_cleanup lines 241-268). -/

/-- 64-bit size_t subtraction (wrapping). -/
def sub64 (a b : Nat) : Nat :=
  (a + (2 ^ 64 - b % 2 ^ 64)) % 2 ^ 64

/-- The counter action of `reset_counters(id)` from src/unnamed/part_003
lines 252-271: under the exclusive lock, bail out unless id == write_,
otherwise subtract id from both read_ and write_ (size_t arithmetic).
Neither this form nor part_000's zeroing form touches the slots, so the
counter action is the whole state change. -/
def reset_counters_sub {V : Type} (q : Fifo V) (id : Nat) : Fifo V :=
  if id ≠ q.write then q
  else { q with read := sub64 q.read id, write := sub64 q.write id }

/-! ### The pure-atomic shared_mutex (src/include/lock_free/shared_mutex.h,
first document).  One atomic word lock_required_: high bit = exclusive
wanted/held, low bits = shared-holder count. -/

/-- `locked` from src/include/lock_free/shared_mutex.h line 15:
size_t(1) << (sizeof(size_t)*8 - 1). -/
def smLocked : Nat := 2 ^ 63

/-- Progress of one thread through `lock_shared`
(src/include/lock_free/shared_mutex.h lines 32-40):
`start` = about to execute ++lock_required_; `backoff` = the increment
observed the exclusive bit and the thread is about to decrement back;
`waiting` = spinning in wait_for_non_exclusive; `acquired` = the shared
lease was granted (lock_shared returned). -/
inductive AcqPhase where
  | start
  | backoff
  | waiting
  | acquired
deriving DecidableEq

/-- One atomic step of `lock_shared` by one thread, with `w` the current
value of lock_required_ (arbitrary: other threads may have changed it
between this thread's steps).  From `start`, the increment's result is
observed; if its `locked` bit is set the thread retreats, else the lease is
granted.  From `backoff` the thread decrements back.  From `waiting` it
re-reads the word and either keeps yielding (bit still set) or retries from
`start`.  All arithmetic is size_t (mod 2^64). -/
def lock_shared_step (w : Nat) (ph : AcqPhase) : Nat × AcqPhase :=
  match ph with
  | .start =>
    let w1 := (w + 1) % 2 ^ 64
    if w1 &&& smLocked ≠ 0 then (w1, .backoff) else (w1, .acquired)
  | .backoff => ((w + (2 ^ 64 - 1)) % 2 ^ 64, .waiting)
  | .waiting =>
    if w &&& smLocked ≠ 0 then (w, .waiting) else (w, .start)
  | .acquired => (w, .acquired)

/-! ### List-level helper lemmas -/

theorem getD_nil {α : Type} (i : Nat) (d : α) : ([] : List α).getD i d = d := rfl

theorem getD_cons_succ {α : Type} (x : α) (xs : List α) (i : Nat) (d : α) :
    (x :: xs).getD (i + 1) d = xs.getD i d := rfl

theorem getD_of_len_le {α : Type} :
    ∀ (l : List α) (i : Nat) (d : α), l.length ≤ i → l.getD i d = d
  | [], _, _, _ => rfl
  | _ :: xs, i + 1, d, h => getD_of_len_le xs i d (by simpa using h)

theorem getD_set_self {α : Type} :
    ∀ (l : List α) (i : Nat) (a d : α), i < l.length → (l.set i a).getD i d = a
  | [], i, _, _, h => absurd h (by simp)
  | _ :: _, 0, _, _, _ => rfl
  | _ :: xs, i + 1, a, d, h => getD_set_self xs i a d (by simpa using h)

theorem getD_set_ne {α : Type} :
    ∀ (l : List α) (i j : Nat) (a d : α), i ≠ j → (l.set i a).getD j d = l.getD j d
  | [], _, _, _, _, _ => rfl
  | _ :: _, 0, 0, _, _, h => absurd rfl h
  | _ :: _, 0, _ + 1, _, _, _ => rfl
  | _ :: _, _ + 1, 0, _, _, _ => rfl
  | _ :: xs, i + 1, j + 1, a, d, h =>
    getD_set_ne xs i j a d (fun e => h (by rw [e]))

theorem getD_append_left {α : Type} :
    ∀ (l l2 : List α) (i : Nat) (d : α), i < l.length → (l ++ l2).getD i d = l.getD i d
  | [], _, i, _, h => absurd h (by simp)
  | _ :: _, _, 0, _, _ => rfl
  | _ :: xs, l2, i + 1, d, h => getD_append_left xs l2 i d (by simpa using h)

theorem getD_append_right {α : Type} :
    ∀ (l l2 : List α) (i : Nat) (d : α), l.length ≤ i →
      (l ++ l2).getD i d = l2.getD (i - l.length) d
  | [], _, _, _, _ => by simp
  | x :: xs, l2, i + 1, d, h => by
    rw [List.cons_append, getD_cons_succ, getD_append_right xs l2 i d (by simpa using h)]
    simp
  | x :: xs, l2, 0, d, h => by simp at h

theorem getD_replicate {α : Type} :
    ∀ (n i : Nat) (a d : α), (List.replicate n a).getD i d = if i < n then a else d
  | 0, i, a, d => by simp [getD_nil]
  | n + 1, 0, a, d => by simp [List.replicate]
  | n + 1, i + 1, a, d => by
    rw [List.replicate, getD_cons_succ, getD_replicate n i a d]
    simp [Nat.succ_lt_succ_iff]

theorem lt_max_one_double (n : Nat) : n < max 1 (n * 2) := by
  rcases Nat.eq_zero_or_pos n with h | h
  · simp [h]
  · have := Nat.le_max_right 1 (n * 2)
    omega

theorem listResize_length {V : Type} [Inhabited V] (l : List (Slot V)) (n : Nat) :
    (listResize l n).length = n := by
  unfold listResize
  split
  · simp
    omega
  · simp
    omega

theorem listResize_grow {V : Type} [Inhabited V] (l : List (Slot V)) (n : Nat)
    (h : l.length ≤ n) :
    listResize l n = l ++ List.replicate (n - l.length) (defaultSlot V) := by
  unfold listResize
  split
  · have : n = l.length := by omega
    simp [this]
  · rfl

/-! ### Properties of the claim/resize phase of push -/

theorem resize_storage_eq {V : Type} [Inhabited V] (q : Fifo V) :
    resize_storage q q.size =
      ⟨q.read, q.write, max 1 (q.size * 2), listResize q.storage (max 1 (q.size * 2))⟩ := by
  rw [resize_storage, dif_pos (Nat.le_refl q.size), dif_pos rfl, resize_storage,
    dif_neg (show ¬ max 1 (q.size * 2) ≤ q.size by have := lt_max_one_double q.size; omega)]

theorem stateAt_all {V : Type} [Inhabited V] (q : Fifo V) (hinv : fifo_inv q) :
    ∀ i, stateAt q i = if q.read ≤ i ∧ i < q.write then .ready else .uninitialized := by
  obtain ⟨hlen, hrw, hws, hst⟩ := hinv
  intro i
  rcases Nat.lt_or_ge i q.storage.length with h | h
  · exact hst i h
  · rw [stateAt, getD_of_len_le _ _ _ h]
    have : ¬ i < q.write := by omega
    simp [defaultSlot, this]

theorem claim_spec {V : Type} [Inhabited V] (q : Fifo V) (hinv : fifo_inv q)
    (hov : q.write ≠ usizeMax) :
    (pushValueThrows q).read = q.read ∧
      (pushValueThrows q).write = q.write + 1 ∧
      (pushValueThrows q).size = (pushValueThrows q).storage.length ∧
      q.write < (pushValueThrows q).storage.length ∧
      q.storage.length ≤ (pushValueThrows q).storage.length ∧
      (∀ i, stateAt (pushValueThrows q) i = stateAt q i) ∧
      (∀ i, i < q.storage.length → valueAt (pushValueThrows q) i = valueAt q i) := by
  obtain ⟨hlen, hrw, hws, hst⟩ := hinv
  have hne : ¬ q.write = usizeMax := hov
  rw [pushValueThrows, if_neg hne]
  simp only
  by_cases hcase : q.size ≤ q.write
  · have hwsz : q.write = q.size := by omega
    rw [if_pos (show ({ q with write := q.write + 1 } : Fifo V).size ≤ q.write from hcase)]
    have harg : resize_storage { q with write := q.write + 1 } q.write
        = resize_storage { q with write := q.write + 1 } q.size := by rw [hwsz]
    have heq := resize_storage_eq (V := V) { q with write := q.write + 1 }
    rw [harg, heq]
    have hlt := lt_max_one_double q.size
    have hgrow := listResize_grow (V := V) q.storage (max 1 (q.size * 2)) (by omega)
    have hlen2 := listResize_length (V := V) q.storage (max 1 (q.size * 2))
    refine ⟨rfl, rfl, ?_, ?_, ?_, ?_, ?_⟩
    · show max 1 (q.size * 2) = (listResize q.storage (max 1 (q.size * 2))).length
      omega
    · show q.write < (listResize q.storage (max 1 (q.size * 2))).length
      omega
    · show q.storage.length ≤ (listResize q.storage (max 1 (q.size * 2))).length
      omega
    · intro i
      show (((listResize q.storage (max 1 (q.size * 2))).getD i (defaultSlot V)).state) = stateAt q i
      rw [stateAt, hgrow]
      rcases Nat.lt_or_ge i q.storage.length with h | h
      · rw [getD_append_left _ _ _ _ h]
      · rw [getD_append_right _ _ _ _ h, getD_of_len_le _ _ _ h, getD_replicate]
        split <;> rfl
    · intro i h
      show (((listResize q.storage (max 1 (q.size * 2))).getD i (defaultSlot V)).value) = valueAt q i
      rw [valueAt, hgrow, getD_append_left _ _ _ _ h]
  · rw [if_neg hcase]
    refine ⟨rfl, rfl, hlen, ?_, Nat.le_refl _, fun _ => rfl, fun _ _ => rfl⟩
    show q.write < q.storage.length
    omega

theorem push_eq_claim {V : Type} [Inhabited V] (q : Fifo V) (v : V)
    (hov : ¬ q.write = usizeMax) :
    push v q = ⟨false, setSlot (pushValueThrows q) q.write ⟨v, .ready⟩⟩ := by
  rw [push, pushValueThrows, if_neg hov, if_neg hov]

theorem push_spec {V : Type} [Inhabited V] (q : Fifo V) (v : V) (hinv : fifo_inv q)
    (hov : q.write ≠ usizeMax) :
    (push v q).overflow = false ∧
      (push v q).q.read = q.read ∧
      (push v q).q.write = q.write + 1 ∧
      fifo_inv (push v q).q ∧
      windowVals (push v q).q = windowVals q ++ [v] := by
  have hne : ¬ q.write = usizeMax := hov
  obtain ⟨hcr, hcw, hclen, hcwlt, hcmono, hcst, hcval⟩ := claim_spec q hinv hov
  have hrw := hinv.2.1
  have hws := hinv.2.2.1
  have hlen := hinv.1
  rw [push_eq_claim q v hne]
  set c := pushValueThrows q with hc
  refine ⟨rfl, hcr, hcw, ⟨?_, ?_, ?_, ?_⟩, ?_⟩
  · show c.size = (c.storage.set q.write ⟨v, .ready⟩).length
    rw [List.length_set]
    exact hclen
  · show c.read ≤ c.write
    omega
  · show c.write ≤ c.size
    omega
  · intro i hi
    have hpr : (setSlot c q.write ⟨v, .ready⟩).read = c.read := rfl
    have hpw : (setSlot c q.write ⟨v, .ready⟩).write = c.write := rfl
    show ((c.storage.set q.write ⟨v, .ready⟩).getD i (defaultSlot V)).state = _
    by_cases hiw : i = q.write
    · subst hiw
      rw [getD_set_self _ _ _ _ hcwlt]
      have hcond : c.read ≤ q.write ∧ q.write < c.write := by omega
      simp only [hpr, hpw, hcond, and_self, if_true]
    · rw [getD_set_ne _ _ _ _ _ (fun e => hiw e.symm)]
      have h1 : stateAt c i = stateAt q i := hcst i
      rw [stateAt] at h1
      rw [h1, stateAt_all q ⟨hlen, hrw, hws, hinv.2.2.2⟩ i]
      have hiff : (q.read ≤ i ∧ i < q.write) ↔ (c.read ≤ i ∧ i < c.write) := by omega
      simp only [hpr, hpw]
      rw [if_congr hiff rfl rfl]
  · show List.map _ (List.range' (setSlot c q.write ⟨v, .ready⟩).read
      ((setSlot c q.write ⟨v, .ready⟩).write - (setSlot c q.write ⟨v, .ready⟩).read))
      = _ ++ [v]
    have hsr : (setSlot c q.write ⟨v, .ready⟩).read = q.read := hcr
    have hsw : (setSlot c q.write ⟨v, .ready⟩).write = q.write + 1 := hcw
    rw [hsr, hsw]
    have hn : q.write + 1 - q.read = (q.write - q.read) + 1 := by omega
    rw [hn, List.range'_concat]
    have hend : q.read + 1 * (q.write - q.read) = q.write := by omega
    rw [hend, List.map_append]
    rw [windowVals, windowIdx]
    congr 1
    · apply List.map_congr_left
      intro a ha
      rw [List.mem_range'_1] at ha
      have haw : a ≠ q.write := by omega
      show ((c.storage.set q.write ⟨v, .ready⟩).getD a (defaultSlot V)).value = valueAt q a
      rw [getD_set_ne _ _ _ _ _ (fun e => haw e.symm)]
      have h2 := hcval a (by omega)
      rw [valueAt] at h2
      exact h2
    · show [((c.storage.set q.write ⟨v, .ready⟩).getD q.write (defaultSlot V)).value] = [v]
      rw [getD_set_self _ _ _ _ hcwlt]

/-! ### Properties of pop on invariant states -/

theorem pop_empty {V : Type} [Inhabited V] (q : Fifo V) (cur : V) (hinv : fifo_inv q)
    (h : q.read = q.write) : pop cur q = (none, q) := by
  have hws := hinv.2.2.1
  rw [pop, pop_scan, dif_neg (show ¬ q.read < min q.write q.size by omega)]

theorem pop_success {V : Type} [Inhabited V] (q : Fifo V) (cur : V) (hinv : fifo_inv q)
    (hlt : q.read < q.write) :
    ∃ qf, pop cur q = (some (valueAt q q.read), qf) ∧ fifo_inv qf ∧
      windowVals q = valueAt q q.read :: windowVals qf ∧ qf.write ≤ q.write := by
  obtain ⟨hlen, hrw, hws, hst⟩ := hinv
  have hstall := stateAt_all q ⟨hlen, hrw, hws, hst⟩
  have hreadlen : q.read < q.storage.length := by omega
  have hready : stateAt q q.read = .ready := by
    rw [hstall]
    simp only [if_pos (show q.read ≤ q.read ∧ q.read < q.write by omega)]
  set q1 : Fifo V := setSlot q q.read ⟨cur, .done⟩ with hq1
  have hpop : pop cur q = (some (valueAt q q.read), increase_read q.read q1) := by
    rw [pop, pop_scan, dif_pos (show q.read < min q.write q.size by omega), if_pos hready]
  set q2 : Fifo V := ⟨q.read + 1, q.write, q.size, q.storage.set q.read ⟨cur, .uninitialized⟩⟩
    with hq2
  have hstate2 : ∀ j, j ≠ q.read → stateAt q2 j = stateAt q j := by
    intro j hj
    rw [stateAt, stateAt]
    show ((q.storage.set q.read ⟨cur, .uninitialized⟩).getD j (defaultSlot V)).state = _
    rw [getD_set_ne _ _ _ _ _ (fun e => hj e.symm)]
  have hwalk1 : advance_read_walk q1 q.read = advance_read_walk q2 (q.read + 1) := by
    have hc1 : q.read < q1.size := by
      show q.read < q.size
      omega
    have hc2 : stateAt q1 q.read = .done := by
      rw [stateAt]
      show ((q.storage.set q.read ⟨cur, .done⟩).getD q.read (defaultSlot V)).state = _
      rw [getD_set_self _ _ _ _ hreadlen]
    rw [advance_read_walk, dif_pos ⟨hc1, hc2⟩]
    have hv1 : valueAt q1 q.read = cur := by
      rw [valueAt]
      show ((q.storage.set q.read ⟨cur, .done⟩).getD q.read (defaultSlot V)).value = _
      rw [getD_set_self _ _ _ _ hreadlen]
    have heq :
        ({ q1 with
              read := q1.read + 1,
              storage := q1.storage.set q.read ⟨valueAt q1 q.read, .uninitialized⟩ } : Fifo V)
          = q2 := by
      rw [hv1]
      show ({ read := q.read + 1, write := q.write, size := q.size,
              storage :=
                (q.storage.set q.read ⟨cur, .done⟩).set q.read ⟨cur, .uninitialized⟩ } : Fifo V)
        = q2
      rw [List.set_set]
    rw [heq]
  have hwalk2 : advance_read_walk q2 (q.read + 1) = q2 := by
    rw [advance_read_walk, dif_neg]
    intro hcon
    have h2 := hcon.2
    rw [hstate2 (q.read + 1) (by omega), hstall] at h2
    by_cases hcnd : q.read ≤ q.read + 1 ∧ q.read + 1 < q.write
    · rw [if_pos hcnd] at h2
      exact absurd h2 (by intro h; cases h)
    · rw [if_neg hcnd] at h2
      exact absurd h2 (by intro h; cases h)
  have hinc : increase_read q.read q1 =
      if q.read + 1 = q.write
      then ⟨0, 0, q.size, q.storage.set q.read ⟨cur, .uninitialized⟩⟩ else q2 := by
    rw [increase_read, if_neg (show ¬ q.read ≠ q1.read from fun h => h rfl)]
    simp only
    rw [hwalk1, hwalk2]
    by_cases hd : q.read + 1 = q.write
    · rw [if_pos (show q2.read = q2.write from hd), if_pos hd]
      rw [reset_counters, if_neg (show ¬ q2.read ≠ q2.write from fun h => h hd)]
    · rw [if_neg (show ¬ q2.read = q2.write from hd), if_neg hd]
  have hwq : ∀ j, j ≠ q.read → j < q.storage.length →
      valueAt q2 j = valueAt q j := by
    intro j hj _
    rw [valueAt, valueAt]
    show ((q.storage.set q.read ⟨cur, .uninitialized⟩).getD j (defaultSlot V)).value = _
    rw [getD_set_ne _ _ _ _ _ (fun e => hj e.symm)]
  by_cases hd : q.read + 1 = q.write
  · refine ⟨⟨0, 0, q.size, q.storage.set q.read ⟨cur, .uninitialized⟩⟩, ?_, ?_, ?_, ?_⟩
    · rw [hpop, hinc, if_pos hd]
    · refine ⟨?_, Nat.le_refl 0, Nat.zero_le _, ?_⟩
      · show q.size = (q.storage.set q.read ⟨cur, .uninitialized⟩).length
        rw [List.length_set]
        exact hlen
      · intro i hi
        rw [List.length_set] at hi
        have hcnd : ¬ (0 ≤ i ∧ i < 0) := by omega
        rw [if_neg hcnd]
        show ((q.storage.set q.read ⟨cur, .uninitialized⟩).getD i (defaultSlot V)).state = _
        by_cases hir : i = q.read
        · subst hir
          rw [getD_set_self _ _ _ _ hreadlen]
        · rw [getD_set_ne _ _ _ _ _ (fun e => hir e.symm)]
          have := hstall i
          rw [stateAt] at this
          rw [this, if_neg (show ¬ (q.read ≤ i ∧ i < q.write) by omega)]
    · rw [windowVals, windowVals, windowIdx, windowIdx]
      simp only
      rw [show q.write - q.read = 1 by omega]
      simp [List.range'_succ]
    · exact Nat.zero_le _
  · refine ⟨q2, ?_, ?_, ?_, ?_⟩
    · rw [hpop, hinc, if_neg hd]
    · refine ⟨?_, by show q.read + 1 ≤ q.write; omega, by show q.write ≤ q.size; omega, ?_⟩
      · show q.size = (q.storage.set q.read ⟨cur, .uninitialized⟩).length
        rw [List.length_set]
        exact hlen
      · intro i hi
        show stateAt q2 i = if q.read + 1 ≤ i ∧ i < q.write then _ else _
        by_cases hir : i = q.read
        · subst hir
          rw [if_neg (show ¬ (q.read + 1 ≤ q.read ∧ q.read < q.write) by omega)]
          rw [stateAt]
          show ((q.storage.set q.read ⟨cur, .uninitialized⟩).getD q.read (defaultSlot V)).state = _
          rw [getD_set_self _ _ _ _ hreadlen]
        · rw [hstate2 i hir, hstall]
          rw [if_congr (show (q.read ≤ i ∧ i < q.write) ↔ (q.read + 1 ≤ i ∧ i < q.write) by omega)
            rfl rfl]
    · rw [windowVals, windowVals, windowIdx, windowIdx]
      show List.map (valueAt q) (List.range' q.read (q.write - q.read))
        = valueAt q q.read :: List.map (valueAt q2) (List.range' (q.read + 1) (q.write - (q.read + 1)))
      rw [show q.write - q.read = (q.write - (q.read + 1)) + 1 by omega, List.range'_succ,
        List.map_cons]
      congr 1
      apply List.map_congr_left
      intro a ha
      rw [List.mem_range'_1] at ha
      exact (hwq a (by omega) (by omega)).symm
    · show q.write ≤ q.write
      exact Nat.le_refl _

/-! ### pop_all and whole histories -/

theorem pop_all_loop_spec {V : Type} [Inhabited V] :
    ∀ (fuel : Nat) (q : Fifo V) (tmp : V) (acc : List V), fifo_inv q →
      fifo_inv (pop_all_loop fuel tmp q acc).2 ∧
        (pop_all_loop fuel tmp q acc).2.write ≤ q.write ∧
        ∃ produced, (pop_all_loop fuel tmp q acc).1 = acc ++ produced ∧
          windowVals q = produced ++ windowVals (pop_all_loop fuel tmp q acc).2 := by
  intro fuel
  induction fuel with
  | zero =>
    intro q tmp acc hinv
    exact ⟨hinv, Nat.le_refl _, [], by simp [pop_all_loop], by simp [pop_all_loop]⟩
  | succ f ih =>
    intro q tmp acc hinv
    by_cases hq : q.read = q.write
    · simp only [pop_all_loop, pop_empty q tmp hinv hq]
      exact ⟨hinv, Nat.le_refl _, [], by simp, by simp⟩
    · have hlt : q.read < q.write := by
        have := hinv.2.1
        omega
      obtain ⟨qf, hpop, hinvf, hwin, hwle⟩ := pop_success q tmp hinv hlt
      simp only [pop_all_loop, hpop]
      obtain ⟨hf2, hwle2, produced, hp1, hp2⟩ :=
        ih qf (valueAt q q.read) (acc ++ [valueAt q q.read]) hinvf
      refine ⟨hf2, by omega, valueAt q q.read :: produced, ?_, ?_⟩
      · rw [hp1]
        simp
      · rw [hwin, hp2]
        simp

theorem pop_all_spec {V : Type} [Inhabited V] (q : Fifo V) (hinv : fifo_inv q) :
    fifo_inv (pop_all q).2 ∧ (pop_all q).2.write ≤ q.write ∧
      windowVals q = (pop_all q).1 ++ windowVals (pop_all q).2 := by
  obtain ⟨h1, h2, produced, hp1, hp2⟩ :=
    pop_all_loop_spec (min q.write q.size - q.read + 1) q default [] hinv
  rw [pop_all]
  refine ⟨h1, h2, ?_⟩
  rw [hp1]
  simpa using hp2

theorem fifoNew_inv {V : Type} [Inhabited V] (n : Nat) : fifo_inv (fifoNew V n) := by
  refine ⟨by simp [fifoNew], Nat.le_refl _, Nat.zero_le _, ?_⟩
  intro i hi
  have h2 : ¬ ((fifoNew V n).read ≤ i ∧ i < (fifoNew V n).write) := by
    show ¬ (0 ≤ i ∧ i < 0)
    omega
  rw [if_neg h2]
  show ((List.replicate n (defaultSlot V)).getD i (defaultSlot V)).state = _
  rw [getD_replicate]
  split <;> rfl

theorem windowVals_nil {V : Type} [Inhabited V] (q : Fifo V) (h : q.read = q.write) :
    windowVals q = [] := by
  rw [windowVals, windowIdx, h]
  simp

/-- The history invariant: the queue satisfies the state invariant and the
pushed values are exactly the popped values followed by the window contents. -/
def HistInv {V : Type} [Inhabited V] (s : Fifo V × List V × List V) : Prop :=
  fifo_inv s.1 ∧ s.2.1 = s.2.2 ++ windowVals s.1

theorem histStep_inv {V : Type} [Inhabited V] (s : Fifo V × List V × List V) (op : Op V)
    (h : HistInv s) : HistInv (histStep s op) := by
  obtain ⟨q, pushed, popped⟩ := s
  obtain ⟨hinv0, heq0⟩ := h
  have hinv : fifo_inv q := hinv0
  have heq : pushed = popped ++ windowVals q := heq0
  cases op with
  | push v =>
    by_cases hov : q.write = usizeMax
    · have hp : push v q = ⟨true, q⟩ := by rw [push, if_pos hov]
      simp only [histStep, hp]
      exact ⟨hinv, heq⟩
    · obtain ⟨hof, hr, hw, hinv2, hwin⟩ := push_spec q v hinv hov
      simp only [histStep, hof]
      refine ⟨hinv2, ?_⟩
      show pushed ++ [v] = popped ++ windowVals (push v q).q
      rw [hwin, heq]
      simp
  | pop =>
    by_cases hq : q.read = q.write
    · simp only [histStep, pop_empty q default hinv hq]
      exact ⟨hinv, heq⟩
    · have hlt : q.read < q.write := by
        have := hinv.2.1
        omega
      obtain ⟨qf, hpop, hinvf, hwin, _⟩ := pop_success q default hinv hlt
      simp only [histStep, hpop]
      refine ⟨hinvf, ?_⟩
      show pushed = (popped ++ [valueAt q q.read]) ++ windowVals qf
      rw [heq, hwin]
      simp
  | pop_all =>
    obtain ⟨h1, _, h3⟩ := pop_all_spec q hinv
    simp only [histStep]
    refine ⟨h1, ?_⟩
    show pushed = (popped ++ (pop_all q).1) ++ windowVals (pop_all q).2
    rw [heq, h3]
    simp

theorem foldl_hist_inv {V : Type} [Inhabited V] (ops : List (Op V)) :
    ∀ s : Fifo V × List V × List V, HistInv s → HistInv (ops.foldl histStep s) := by
  induction ops with
  | nil => intro s h; exact h
  | cons op rest ih =>
    intro s h
    exact ih (histStep s op) (histStep_inv s op h)

theorem runHist_inv {V : Type} [Inhabited V] (n : Nat) (ops : List (Op V)) :
    HistInv (runHist n ops) := by
  apply foldl_hist_inv
  refine ⟨fifoNew_inv n, ?_⟩
  show ([] : List V) = [] ++ windowVals (fifoNew V n)
  rw [windowVals_nil (fifoNew V n) rfl]
  rfl

/-! ### Scan lemmas for the non-blocking pop contract -/

theorem pop_scan_no_ready {V : Type} [Inhabited V] (cur : V) (q : Fifo V) (m : Nat) :
    ∀ (k id : Nat), m - id ≤ k → (∀ i, id ≤ i → i < m → stateAt q i ≠ .ready) →
      pop_scan cur q id m = (none, q) := by
  intro k
  induction k with
  | zero =>
    intro id hk h
    rw [pop_scan, dif_neg (show ¬ id < m by omega)]
  | succ k ih =>
    intro id hk h
    rw [pop_scan]
    by_cases hid : id < m
    · rw [dif_pos hid, if_neg (h id (Nat.le_refl id) hid)]
      exact ih (id + 1) (by omega) (fun i h1 h2 => h i (by omega) h2)
    · rw [dif_neg hid]

theorem pop_scan_finds_ready {V : Type} [Inhabited V] (cur : V) (q : Fifo V) (m : Nat) :
    ∀ (k id : Nat), m - id ≤ k → (∃ i, id ≤ i ∧ i < m ∧ stateAt q i = .ready) →
      ∃ v q2, pop_scan cur q id m = (some v, q2) := by
  intro k
  induction k with
  | zero =>
    intro id hk h
    obtain ⟨i, h1, h2, _⟩ := h
    omega
  | succ k ih =>
    intro id hk h
    obtain ⟨i, h1, h2, h3⟩ := h
    have hid : id < m := by omega
    rw [pop_scan, dif_pos hid]
    by_cases hr : stateAt q id = .ready
    · rw [if_pos hr]
      exact ⟨_, _, rfl⟩
    · rw [if_neg hr]
      have hne : i ≠ id := by
        intro e
        rw [e] at h3
        exact hr h3
      exact ih (id + 1) (by omega) ⟨i, by omega, h2, h3⟩

/-! ### Arithmetic of the shared_mutex word -/

theorem smLocked_and_ne (w : Nat) (h : w < 2 ^ 64) :
    (w &&& smLocked ≠ 0) ↔ 2 ^ 63 ≤ w := by
  have hpow : w &&& smLocked = (w.testBit 63).toNat * 2 ^ 63 := Nat.and_two_pow w 63
  rw [Nat.testBit_to_div_mod] at hpow
  by_cases hle : 2 ^ 63 ≤ w
  · have hdiv : w / 2 ^ 63 = 1 := by omega
    rw [hpow, hdiv]
    simp
    omega
  · have hdiv : w / 2 ^ 63 = 0 := by omega
    rw [hpow, hdiv]
    simp
    omega

/-! ### The claims -/

/-- C1: for every sequence of fifo operations (push, pop, pop_all) executed
without interleaving, the values returned by successful pops neither
duplicate nor fabricate — as multisets, the popped values form a sub-multiset
of the values of the preceding successful pushes.  Since the statement holds
for every operation list and every prefix of a history is itself a history,
each successful pop in a history returns a value pushed before it, and each
pushed value is consumed by at most one successful pop. -/
theorem c1_no_duplication_no_fabrication {V : Type} [Inhabited V] (n : Nat)
    (ops : List (Op V)) :
    ((runHist n ops).2.2 : Multiset V) ≤ ((runHist n ops).2.1 : Multiset V) := by
  obtain ⟨-, heq⟩ := runHist_inv n ops
  rw [heq]
  have hsplit :
      (((runHist n ops).2.2 ++ windowVals (runHist n ops).1 : List V) : Multiset V)
        = ((runHist n ops).2.2 : Multiset V) + (windowVals (runHist n ops).1 : Multiset V) := by
    exact_mod_cast rfl
  rw [hsplit]
  exact self_le_add_right _ _

/-- C2: for every value v and every empty queue (read_ == write_, in a state
satisfying the sequential invariant, with the write counter not saturated —
at the saturated counter push raises Overflow and the pop is never reached),
push(v) followed by pop(&out) with no concurrent activity returns true from
pop and leaves out equal to v. -/
theorem c2_push_pop_roundtrip {V : Type} [Inhabited V] (q : Fifo V) (v cur : V)
    (hinv : fifo_inv q) (hemp : q.read = q.write) (hov : q.write ≠ usizeMax) :
    (push v q).overflow = false ∧ (pop cur (push v q).q).1 = some v := by
  obtain ⟨hof, hr, hw, hinv2, hwin⟩ := push_spec q v hinv hov
  refine ⟨hof, ?_⟩
  have hlt : (push v q).q.read < (push v q).q.write := by omega
  obtain ⟨qf, hpop, hinvf, hwin2, _⟩ := pop_success (push v q).q cur hinv2 hlt
  rw [hpop]
  have hnil : windowVals q = [] := windowVals_nil q hemp
  rw [hnil] at hwin
  simp only [List.nil_append] at hwin
  rw [hwin] at hwin2
  have hv : v = valueAt (push v q).q ((push v q).q.read) := by
    injection hwin2 with h1 h2
  show some (valueAt (push v q).q ((push v q).q.read)) = some v
  rw [← hv]

/-- C2 witness: a concrete round trip through a fresh queue of capacity 4. -/
theorem c2_witness :
    (push 7 (fifoNew Nat 4)).overflow = false ∧
      (pop 0 (push 7 (fifoNew Nat 4)).q).1 = some 7 :=
  c2_push_pop_roundtrip (fifoNew Nat 4) 7 0 (by decide) rfl (by decide)

/-- C3: pop is non-blocking (a total function in this model): with no Ready
slot at an index in [read_, min(write_, size_)) it returns false and leaves
both the queue and the caller's out argument untouched (the `none` result);
with such a Ready slot it returns true with a value written into out. -/
theorem c3_pop_nonblocking {V : Type} [Inhabited V] (q : Fifo V) (cur : V) :
    ((∀ i, q.read ≤ i → i < min q.write q.size → stateAt q i ≠ .ready) →
        pop cur q = (none, q)) ∧
      ((∃ i, q.read ≤ i ∧ i < min q.write q.size ∧ stateAt q i = .ready) →
        ∃ v q2, pop cur q = (some v, q2)) := by
  constructor
  · intro h
    rw [pop]
    exact pop_scan_no_ready cur q (min q.write q.size) (min q.write q.size) q.read
      (by omega) h
  · intro h
    rw [pop]
    exact pop_scan_finds_ready cur q (min q.write q.size) (min q.write q.size) q.read
      (by omega) h

/-- C3 witness: pop on a fresh (empty) queue returns false and changes
nothing. -/
theorem c3_witness : pop 9 (fifoNew Nat 3) = (none, fifoNew Nat 3) :=
  (c3_pop_nonblocking (fifoNew Nat 3) 9).1
    (by
      intro i h1 h2
      rw [show min (fifoNew Nat 3).write (fifoNew Nat 3).size = 0 by decide] at h2
      exact absurd h2 (by omega))

/-- C4: push raises Overflow (the logic_error) exactly when write_ equals
its maximum representable value at entry, and then the whole queue state is
returned unchanged; a push that does not hit the limit does not raise
Overflow. -/
theorem c4_push_overflow {V : Type} [Inhabited V] (v : V) (q : Fifo V) :
    ((push v q).overflow = true ↔ q.write = usizeMax) ∧
      (q.write = usizeMax → (push v q).q = q) := by
  by_cases h : q.write = usizeMax
  · rw [push, if_pos h]
    exact ⟨⟨fun _ => h, fun _ => rfl⟩, fun _ => rfl⟩
  · rw [push, if_neg h]
    refine ⟨⟨fun hc => ?_, fun hc => absurd hc h⟩, fun hc => absurd hc h⟩
    exact absurd hc (by simp)

/-- C4 witness: push on a queue whose counter sits at the maximum leaves the
state unchanged. -/
theorem c4_witness :
    (push (0 : Nat) ⟨0, usizeMax, 0, []⟩).q = (⟨0, usizeMax, 0, []⟩ : Fifo Nat) :=
  (c4_push_overflow 0 ⟨0, usizeMax, 0, []⟩).2 rfl

/-- C5 counterexample: the claim says that a push whose value-write raises
forces the claimed slot's state to Done; in the code push has no exception
handler, so after the failed first push into a fresh capacity-1 queue the
claimed slot 0 is still Uninitialized, not Done (and the counter was not
rolled back). -/
theorem c5_counterexample :
    stateAt (pushValueThrows (fifoNew Nat 1)) 0 = .uninitialized ∧
      ¬ stateAt (pushValueThrows (fifoNew Nat 1)) 0 = .done ∧
      (pushValueThrows (fifoNew Nat 1)).write = 1 := by
  decide

/-- C5 amended: for every push in which writing the value into the claimed
slot raises, push propagates the exception without touching any slot state —
the claimed slot stays Uninitialized (it is never marked Ready, so consumers
never return it, though it is not forced to Done) — and the write counter is
not rolled back. -/
theorem c5_amended {V : Type} [Inhabited V] (q : Fifo V) (hinv : fifo_inv q)
    (hov : q.write ≠ usizeMax) :
    (pushValueThrows q).write = q.write + 1 ∧
      (pushValueThrows q).read = q.read ∧
      (∀ i, stateAt (pushValueThrows q) i = stateAt q i) ∧
      stateAt (pushValueThrows q) q.write = .uninitialized := by
  obtain ⟨hcr, hcw, hclen, hcwlt, hcmono, hcst, hcval⟩ := claim_spec q hinv hov
  refine ⟨hcw, hcr, hcst, ?_⟩
  rw [hcst q.write, stateAt_all q hinv q.write,
    if_neg (show ¬ (q.read ≤ q.write ∧ q.write < q.write) by omega)]

/-- C5 amended witness: the failed push into a fresh capacity-2 queue. -/
theorem c5_amended_witness :
    (pushValueThrows (fifoNew Nat 2)).write = (fifoNew Nat 2).write + 1 ∧
      (pushValueThrows (fifoNew Nat 2)).read = (fifoNew Nat 2).read ∧
      (∀ i, stateAt (pushValueThrows (fifoNew Nat 2)) i = stateAt (fifoNew Nat 2) i) ∧
      stateAt (pushValueThrows (fifoNew Nat 2)) (fifoNew Nat 2).write = .uninitialized :=
  c5_amended (fifoNew Nat 2) (by decide) (by decide)

/-- C6: on invariant states every fifo operation of the canonical iteration
(push, pop, pop_all, clear) preserves read_ ≤ write_; and in the
claim-by-increment iteration, a pop whose claimed read index is ≥ write_
(≥ stored_, which the producer protocol keeps ≤ write_) backs out: it
returns false, and either restores the whole storage word exactly, or — when
the drained counters coincided — resets read_, write_ and stored_ together
to zero; either way, if read_ ≤ write_ held before the claim it holds again
after. -/
theorem c6_read_le_write {V : Type} [Inhabited V] :
    (∀ (q : Fifo V) (v cur : V), fifo_inv q →
        (push v q).q.read ≤ (push v q).q.write ∧
        (pop cur q).2.read ≤ (pop cur q).2.write ∧
        (pop_all q).2.read ≤ (pop_all q).2.write ∧
        (clear q).read ≤ (clear q).write) ∧
      (∀ s : Storage0 V, s.stored ≤ s.write → s.write ≤ s.read →
        (pop_generic0 s).1 = none ∧
        ((pop_generic0 s).2 = s ∨
          (s.read = s.write ∧ s.read = s.stored ∧
            (pop_generic0 s).2 = ⟨0, 0, 0, s.lookup⟩)) ∧
        (s.read ≤ s.write →
          (pop_generic0 s).2.read ≤ (pop_generic0 s).2.write)) := by
  constructor
  · intro q v cur hinv
    refine ⟨?_, ?_, ?_, Nat.le_refl 0⟩
    · by_cases hov : q.write = usizeMax
      · rw [push, if_pos hov]
        exact hinv.2.1
      · obtain ⟨_, hr, hw, hinv2, _⟩ := push_spec q v hinv hov
        exact hinv2.2.1
    · by_cases hq : q.read = q.write
      · rw [pop_empty q cur hinv hq]
        exact hinv.2.1
      · have hlt : q.read < q.write := by
          have := hinv.2.1
          omega
        obtain ⟨qf, hpop, hinvf, _, _⟩ := pop_success q cur hinv hlt
        rw [hpop]
        exact hinvf.2.1
    · exact (pop_all_spec q hinv).1.2.1
  · intro s h1 h2
    obtain ⟨r, w, st, lk⟩ := s
    simp only at h1 h2
    have hbr : st ≤ r := by omega
    rw [pop_generic0]
    simp only
    rw [if_pos (show r ≥ st from hbr)]
    have hrr : r + 1 - 1 = r := by omega
    rw [hrr]
    by_cases hcln : r ≠ w ∨ r ≠ st
    · rw [try_cleanup0, if_pos hcln]
      refine ⟨rfl, Or.inl rfl, ?_⟩
      intro h3
      simpa using h3
    · rw [try_cleanup0, if_neg hcln]
      push_neg at hcln
      exact ⟨rfl, Or.inr ⟨hcln.1, hcln.2, rfl⟩, fun _ => Nat.le_refl 0⟩

/-- C6 witness: push on a fresh capacity-1 queue keeps read_ ≤ write_, and
the claiming pop on a drained packed-storage state backs out with a false
result. -/
theorem c6_witness :
    (push 3 (fifoNew Nat 1)).q.read ≤ (push 3 (fifoNew Nat 1)).q.write ∧
      (pop_generic0 (⟨2, 2, 2, [5, 6]⟩ : Storage0 Nat)).1 = none :=
  ⟨((c6_read_le_write (V := Nat)).1 (fifoNew Nat 1) 3 0 (by decide)).1,
    ((c6_read_le_write (V := Nat)).2 ⟨2, 2, 2, [5, 6]⟩ (by decide) (by decide)).1⟩

/-- C7: once the exclusive bit of the shared_mutex word is set, no new
shared lease is granted until it clears.  (a) a lock_shared step grants the
lease only from the increment step and only when the incremented word shows
the bit clear; (b) an increment that observes the bit set is followed by the
retreating decrement which restores the word exactly (net zero on the holder
count); (c) while the bit is set (and the holder count is not overflowing
into the bit), no step of a shared acquirer in any phase completes the
acquisition.  The word is quantified afresh at every step, so interference
from other threads between the acquirer's atomic steps is covered. -/
theorem c7_exclusive_blocks_shared :
    (∀ (w : Nat) (ph : AcqPhase), ph ≠ .acquired →
        (lock_shared_step w ph).2 = .acquired →
        ph = .start ∧ ((w + 1) % 2 ^ 64) &&& smLocked = 0) ∧
      (∀ w : Nat, w < 2 ^ 64 → ((w + 1) % 2 ^ 64) &&& smLocked ≠ 0 →
        lock_shared_step w .start = ((w + 1) % 2 ^ 64, .backoff) ∧
        (lock_shared_step ((w + 1) % 2 ^ 64) .backoff).1 = w) ∧
      (∀ (w : Nat) (ph : AcqPhase), w < 2 ^ 64 → w &&& smLocked ≠ 0 →
        w % 2 ^ 63 + 1 < 2 ^ 63 → ph ≠ .acquired →
        (lock_shared_step w ph).2 ≠ .acquired) := by
  refine ⟨?_, ?_, ?_⟩
  · intro w ph hph hacq
    cases ph with
    | start =>
      refine ⟨rfl, ?_⟩
      by_cases hb : ((w + 1) % 2 ^ 64) &&& smLocked ≠ 0
      · exfalso
        simp only [lock_shared_step] at hacq
        rw [if_pos hb] at hacq
        simp at hacq
      · exact not_ne_iff.mp hb
    | backoff =>
      exfalso
      simp only [lock_shared_step] at hacq
      simp at hacq
    | waiting =>
      exfalso
      simp only [lock_shared_step] at hacq
      by_cases hb : w &&& smLocked ≠ 0
      · rw [if_pos hb] at hacq
        simp at hacq
      · rw [if_neg hb] at hacq
        simp at hacq
    | acquired => exact absurd rfl hph
  · intro w hw hb
    constructor
    · simp only [lock_shared_step]
      rw [if_pos hb]
    · simp only [lock_shared_step]
      omega
  · intro w ph hw hband hlow hph
    have hge : 2 ^ 63 ≤ w := (smLocked_and_ne w hw).mp hband
    cases ph with
    | start =>
      have hw1 : w + 1 < 2 ^ 64 := by omega
      have hm : (w + 1) % 2 ^ 64 = w + 1 := Nat.mod_eq_of_lt hw1
      have hb2 : ((w + 1) % 2 ^ 64) &&& smLocked ≠ 0 := by
        rw [hm]
        exact (smLocked_and_ne (w + 1) hw1).mpr (by omega)
      simp only [lock_shared_step]
      rw [if_pos hb2]
      simp
    | backoff =>
      simp only [lock_shared_step]
      simp
    | waiting =>
      simp only [lock_shared_step]
      rw [if_pos hband]
      simp
    | acquired => exact absurd rfl hph

/-- C7 witness: with the word holding exactly the exclusive bit, a shared
acquirer's increment step does not complete the acquisition. -/
theorem c7_witness : (lock_shared_step (2 ^ 63) .start).2 ≠ .acquired :=
  c7_exclusive_blocks_shared.2.2 (2 ^ 63) .start (by norm_num)
    ((smLocked_and_ne (2 ^ 63) (by norm_num)).mpr (by norm_num))
    (by simp) (by simp)

/-- C8: under the precondition read_ == write_ at reset time (and the
counter in the representable size_t range), the zeroing reset of the
canonical iteration and the subtractive reset of the part_003 iteration
produce the same resulting queue state — both leave the slots untouched and
both set read_ = write_ = 0. -/
theorem c8_reset_equiv {V : Type} (q : Fifo V) (h1 : q.read = q.write)
    (h2 : q.write < 2 ^ 64) :
    reset_counters_sub q q.write = reset_counters q ∧
      (reset_counters q).read = 0 ∧ (reset_counters q).write = 0 := by
  have hs : sub64 q.write q.write = 0 := by
    rw [sub64]
    omega
  have hs2 : sub64 q.read q.write = 0 := by
    rw [sub64, h1]
    omega
  rw [reset_counters_sub, reset_counters,
    if_neg (show ¬ q.write ≠ q.write from fun h => h rfl),
    if_neg (show ¬ q.read ≠ q.write from fun h => h h1)]
  rw [hs, hs2]
  exact ⟨rfl, rfl, rfl⟩

/-- C8 witness: both reset forms zero the counters of a drained queue with
read_ = write_ = 5. -/
theorem c8_witness :
    reset_counters_sub (⟨5, 5, 2, []⟩ : Fifo Nat) 5
        = reset_counters (⟨5, 5, 2, []⟩ : Fifo Nat) ∧
      (reset_counters (⟨5, 5, 2, []⟩ : Fifo Nat)).read = 0 ∧
      (reset_counters (⟨5, 5, 2, []⟩ : Fifo Nat)).write = 0 :=
  c8_reset_equiv ⟨5, 5, 2, []⟩ rfl (by norm_num)

/-- C9 counterexample: the runtime constructor given capacity 0 neither
raises a logic error (it has no throw path) nor treats the capacity as 1: it
yields a queue whose slab capacity is 0, refuting the claim as stated. -/
theorem c9_counterexample :
    (fifoNew Nat 0).size = 0 ∧ (fifoNew Nat 0).storage.length = 0 ∧
      ¬ 1 ≤ (fifoNew Nat 0).storage.length := by
  decide

/-- C9 amended: the runtime constructor accepts capacity 0 without error and
yields an (empty) queue with slab capacity 0 (the grow protocol then raises
the capacity to 1 on the first push); for every capacity n ≥ 1 it yields an
empty queue satisfying the invariant whose slab capacity is at least n, and
the default capacity is 1024.  (The fixed-capacity header variant instead
rejects capacity 0 at compile time via static_assert.) -/
theorem c9_amended {V : Type} [Inhabited V] :
    (fifoNew V 0).size = 0 ∧ (fifoNew V 0).storage.length = 0 ∧
      (∀ n, 1 ≤ n → (fifoNew V n).read = (fifoNew V n).write ∧
        fifo_inv (fifoNew V n) ∧ n ≤ (fifoNew V n).storage.length) ∧
      fifoNewDefault V = fifoNew V 1024 := by
  refine ⟨rfl, by simp [fifoNew], ?_, rfl⟩
  intro n hn
  exact ⟨rfl, fifoNew_inv n, by simp [fifoNew]⟩

/-- C9 amended witness: capacity 3 yields an empty invariant-satisfying
queue of slab capacity 3. -/
theorem c9_amended_witness :
    (fifoNew Nat 3).read = (fifoNew Nat 3).write ∧
      fifo_inv (fifoNew Nat 3) ∧ 3 ≤ (fifoNew Nat 3).storage.length :=
  (c9_amended (V := Nat)).2.2.1 3 (by decide)

/-- C10: the claim asserts that in every reachable state, including after
clear on a non-empty queue, the slot claimed by push is Uninitialized at the
moment of the store.  The code violates this: clear only zeroes the
counters, so after push(5) into a capacity-1 queue followed by clear(), the
next push claims index write_ = 0 whose slot is still Ready — the assertion
`storage_[id].state == uninitialized` of push would fire. -/
theorem c10_clear_breaks_push_assert :
    stateAt (clear (push 5 (fifoNew Nat 1)).q)
        ((clear (push 5 (fifoNew Nat 1)).q).write) = .ready ∧
      (clear (push 5 (fifoNew Nat 1)).q).write = 0 ∧
      (clear (push 5 (fifoNew Nat 1)).q).read = (clear (push 5 (fifoNew Nat 1)).q).write := by
  decide

end LockFree
